import Mathlib

/-!
Shallow embedding of BuildUHT.py (unit history table builder).

Timestamps are modeled as natural numbers counting hours; a calendar day
is 24 ticks, and a "calendar day" value is the midnight tick of that day
(a multiple of `ticksPerDay`).  Missing values (pandas NaN / NaT) are
modeled with `Option`: an `Option Nat` date that is `none` plays the role
of NaT (every `<` or `>=` comparison with it is false, as in pandas), and
an `Option UStatus` cell that is `none` is a NaN cell of the unitstatus
column.  Top-up values are integers (weeks of credit); the value column of
a transaction is `Option Int` because non-top-up function codes carry no
value (None in the source).
-/

namespace BuildUHT

/-- Number of timestamp ticks in one calendar day (timestamps are in hours). -/
def ticksPerDay : Nat := 24

/-- Truncate a timestamp to midnight of its calendar day
(source: `dt.datetime(*ts.timetuple()[:3])`, lines 170, 222, 242-243). -/
def dayFloor (t : Nat) : Nat := t / ticksPerDay * ticksPerDay

/-- One row of the cleaned transaction log: unit identifier, timestamp,
function code, and the resolved top-up value in weeks (`None` for codes
with no top-up value, e.g. the unlock code 5). -/
structure Event where
  unit_id : String
  ts : Nat
  function_code : Nat
  topupvalue : Option Int
deriving DecidableEq, Repr

/-- A cell of the `unitstatus` column.  The source stores `'S'`, `'U'`, or a
number: positive numbers are days of credit remaining, and `-k` (with
`k ≥ 0`) is a streak of `k` consecutive days out of credit.  The two numeric
tracks come from the two branches of the loop (lines 188-199), so they are
kept as distinct constructors; `credit n` always has `n > 0` and `ooc k`
encodes the emitted number `-k`. -/
inductive UStatus where
  | S
  | U
  | credit (n : Int)
  | ooc (k : Nat)
deriving DecidableEq, Repr

/-- `d < i` where `i` may be NaT (`none`): any comparison with NaT is false
(pandas semantics, used on line 165 when a unit has no events). -/
def ltNaT (d : Nat) : Option Nat → Bool
  | none => false
  | some i => decide (d < i)

/-- `d >= i` where `i` may be NaT (`none`): any comparison with NaT is false. -/
def geNaT (d : Nat) : Option Nat → Bool
  | none => false
  | some i => decide (i ≤ d)

/-- Per-day total top-up value in weeks: the daily resample-sum of the
`topupvalue` column with NaN bins set to 0 (lines 143-146, 156-159).
Events whose `topupvalue` is `None` contribute 0. -/
def dailytopuptotal (events : List Event) (d : Nat) : Int :=
  ((events.filter (fun x => dayFloor x.ts == d)).map
    (fun x => x.topupvalue.getD 0)).sum

/-- The day axis `pd.date_range(start, end, freq='d')` (lines 156, 248):
all values `s + k * ticksPerDay` that are `≤ e`; empty when `e < s`. -/
def dateRange (s e : Nat) : List Nat :=
  if s ≤ e then (List.range ((e - s) / ticksPerDay + 1)).map
    (fun k => s + k * ticksPerDay)
  else []

/-- The unlock transactions of a unit: rows with function code 5 (line 168). -/
def unlocktrans (events : List Event) : List Event :=
  events.filter (fun x => x.function_code == 5)

/-- Effective install date: the explicit override when supplied, otherwise
the first day of the resampled history, i.e. the calendar day of the
earliest event; NaT (`none`) when there are no events (lines 148-150). -/
def effInstall (events : List Event) : Option Nat → Option Nat
  | some d => some d
  | none => (events.map (fun x => dayFloor x.ts)).min?

/-- First unlock cutoff: the calendar day of the first code-5 row in
dataframe order (`index[0]`, lines 168-170); `none` when no unlock exists. -/
def unlockdate1 (events : List Event) : Option Nat :=
  (unlocktrans events).head?.map (fun x => dayFloor x.ts)

/-- Upper bound of the simulation loop (line 183): the first unlock cutoff
when one exists, otherwise a sentinel one year past the end date
(line 174). -/
def loopBound (events : List Event) (enddate : Nat) : Nat :=
  match unlockdate1 events with
  | some u => u
  | none => enddate + 365 * ticksPerDay

/-- Second unlock cutoff (line 204): the minimum RAW timestamp of the
code-5 rows, not truncated to midnight; `none` stands for NaT, and the
overwrite of line 206 with a NaT bound matches no day at all. -/
def unlockdate2 (events : List Event) : Option Nat :=
  ((unlocktrans events).map (fun x => x.ts)).min?

/-- Membership of a day in the iteration of line 183:
`index >= installdate & index < unlockdate`. -/
def inLoopD (events : List Event) (inst : Option Nat) (enddate d : Nat) : Bool :=
  geNaT d (effInstall events inst) && decide (d < loopBound events enddate)

/-- Cell contents before the simulation loop runs: line 165 sets days
before the install date to Stock, then line 171 overwrites days on/after
the first unlock cutoff with Unlocked; remaining cells are NaN. -/
def preCell (install u1 : Option Nat) (d : Nat) : Option UStatus :=
  if geNaT d u1 then some .U
  else if ltNaT d install then some .S
  else none

/-- The status written on one loop day (lines 186-198): first the day's
top-up is added, then a positive balance is emitted as credit remaining,
otherwise the current out-of-credit streak is emitted as `-streak`. -/
def emitCell (total : Nat → Int) (st : Int × Nat) (d : Nat) : Option UStatus :=
  if 0 < st.1 + total d * 7 then some (.credit (st.1 + total d * 7))
  else some (.ooc st.2)

/-- The counter update of one loop day (lines 186-199): in credit, the
balance is decremented and the streak reset; out of credit, the balance is
kept and the streak incremented. -/
def stepState (total : Nat → Int) (st : Int × Nat) (d : Nat) : Int × Nat :=
  if 0 < st.1 + total d * 7 then (st.1 + total d * 7 - 1, 0)
  else (st.1 + total d * 7, st.2 + 1)

/-- The row iteration of lines 183-199 over the day axis: rows inside the
loop window get a freshly emitted status and advance the counters; rows
outside keep their current cell. -/
def runLoop (total : Nat → Int) (il : Nat → Bool) :
    Int × Nat → List (Nat × Option UStatus) → List (Nat × Option UStatus)
  | _, [] => []
  | st, p :: rest =>
    if il p.1 then
      (p.1, emitCell total st p.1) :: runLoop total il (stepState total st p.1) rest
    else
      p :: runLoop total il st rest

/-- Counter state after a prefix of the iteration (the fold of the loop of
lines 183-199 restricted to its state updates). -/
def loopFinal (total : Nat → Int) (il : Nat → Bool)
    (st : Int × Nat) (l : List (Nat × Option UStatus)) : Int × Nat :=
  l.foldl (fun s p => if il p.1 then stepState total s p.1 else s) st

/-- The final overwrite of lines 204-206: every day on/after the raw
minimum unlock timestamp becomes Unlocked; with no unlock (NaT bound) no
day matches. -/
def unlock2Pass (u2 : Option Nat) (rows : List (Nat × Option UStatus)) :
    List (Nat × Option UStatus) :=
  rows.map (fun p => if geNaT p.1 u2 then (p.1, some .U) else p)

/-- `unitdailystatus` (lines 124-211): the complete day-indexed status
column for one unit, from `startdate` to `enddate` inclusive. -/
def unitdailystatus (events : List Event) (startdate enddate : Nat)
    (installdate : Option Nat) : List (Nat × Option UStatus) :=
  unlock2Pass (unlockdate2 events)
    (runLoop (dailytopuptotal events) (inLoopD events installdate enddate) (0, 0)
      ((dateRange startdate enddate).map
        (fun d => (d, preCell (effInstall events installdate) (unlockdate1 events) d))))

/-- The counter state at the start of position `j` of the day axis. -/
def simStateAt (events : List Event) (s e : Nat) (inst : Option Nat) (j : Nat) :
    Int × Nat :=
  loopFinal (dailytopuptotal events) (inLoopD events inst e) (0, 0)
    (((dateRange s e).map
      (fun d => (d, preCell (effInstall events inst) (unlockdate1 events) d))).take j)

/-- The cell finally stored for day `d`, given the counter state `st` the
loop reaches on that day: the line 204-206 overwrite wins, then the loop
emission, then the pre-loop cell. -/
def finalCell (events : List Event) (inst : Option Nat) (e : Nat)
    (st : Int × Nat) (d : Nat) : Option UStatus :=
  if geNaT d (unlockdate2 events) then some .U
  else if inLoopD events inst e d then emitCell (dailytopuptotal events) st d
  else preCell (effInstall events inst) (unlockdate1 events) d

/-- The calendar day of the earliest unlock event, when one exists. -/
def unlockDayOpt (events : List Event) : Option Nat :=
  (unlockdate2 events).map dayFloor

/-- A day strictly before the calendar day of the earliest unlock event
(vacuously true when the unit is never unlocked). -/
def beforeUnlockDay (events : List Event) (d : Nat) : Bool :=
  match unlockdate2 events with
  | none => true
  | some m => decide (d < dayFloor m)

/-! ### The aggregator (lines 229-263) -/

/-- A single-unit history: the day axis paired with the unitstatus column. -/
abbrev UnitHistory := List (Nat × Option UStatus)

/-- The unit history table: one column (keyed by unit identifier) per unit. -/
abbrev UHT := List (String × UnitHistory)

/-- Earliest timestamp across the whole transaction log (line 241). -/
def minTs (feed : List Event) : Option Nat := (feed.map (fun x => x.ts)).min?

/-- Latest timestamp across the whole transaction log (line 243). -/
def maxTs (feed : List Event) : Option Nat := (feed.map (fun x => x.ts)).max?

/-- Global start date: the earliest timestamp truncated to midnight
(line 242).  The `getD` default is never reached on a nonempty feed. -/
def startdate (feed : List Event) : Nat := dayFloor ((minTs feed).getD 0)

/-- Global end date: the latest timestamp truncated to midnight of the
NEXT day (line 244). -/
def enddate (feed : List Event) : Nat :=
  dayFloor ((maxTs feed).getD 0) + ticksPerDay

/-- The groupby keys of line 257: the distinct unit identifiers of the
feed, in order of first appearance. -/
def unitsOf (feed : List Event) : List String :=
  (feed.map (fun x => x.unit_id)).dedup

/-- One groupby group of line 257: the rows of a single unit, in feed
order. -/
def unittransOf (u : String) (feed : List Event) : List Event :=
  feed.filter (fun x => x.unit_id == u)

/-- The left join of line 263: the master table gains one new column,
keyed by the unit identifier, holding the unit history. -/
def joinColumn (tbl : UHT) (u : String) (hist : UnitHistory) : UHT :=
  tbl ++ [(u, hist)]

/-- The aggregation loop of lines 257-263: for each unit with at least one
transaction, simulate and join the history as a new column. -/
def unithistorytable (feed : List Event) : UHT :=
  (unitsOf feed).foldl
    (fun tbl u =>
      if (unittransOf u feed).length > 0 then
        joinColumn tbl u
          (unitdailystatus (unittransOf u feed) (startdate feed) (enddate feed) none)
      else tbl)
    []

/-! ### Basic arithmetic and list lemmas -/

theorem ticksPerDay_pos : 0 < ticksPerDay := by decide

theorem dayFloor_le (t : Nat) : dayFloor t ≤ t := Nat.div_mul_le_self t ticksPerDay

theorem dayFloor_mono {a b : Nat} (h : a ≤ b) : dayFloor a ≤ dayFloor b :=
  Nat.mul_le_mul_right _ (Nat.div_le_div_right h)

theorem dayFloor_dvd (t : Nat) : ticksPerDay ∣ dayFloor t :=
  Dvd.intro _ (Nat.mul_comm _ _)

theorem natMin?_iff {l : List Nat} {m : Nat} :
    l.min? = some m ↔ m ∈ l ∧ ∀ b ∈ l, m ≤ b :=
  List.min?_eq_some_iff (fun a => Nat.le_refl a) (fun a b => min_choice a b)
    (fun _ _ _ => le_min_iff)

theorem natMax?_iff {l : List Nat} {M : Nat} :
    l.max? = some M ↔ M ∈ l ∧ ∀ b ∈ l, b ≤ M :=
  List.max?_eq_some_iff (fun a => Nat.le_refl a) (fun a b => max_choice a b)
    (fun _ _ _ => max_le_iff)

theorem min?_le_of_mem {l : List Nat} {m x : Nat}
    (h : l.min? = some m) (hx : x ∈ l) : m ≤ x :=
  (natMin?_iff.mp h).2 x hx

theorem min?_ne_none {l : List Nat} (h : l ≠ []) : ∃ m, l.min? = some m := by
  cases l with
  | nil => exact absurd rfl h
  | cons a as => exact ⟨_, List.min?_cons⟩

theorem max?_ne_none {l : List Nat} (h : l ≠ []) : ∃ M, l.max? = some M := by
  cases l with
  | nil => exact absurd rfl h
  | cons a as => exact ⟨_, List.max?_cons⟩

theorem min?_cons_of_le {a : Nat} {l : List Nat} (h : ∀ x ∈ l, a ≤ x) :
    (a :: l).min? = some a :=
  natMin?_iff.mpr ⟨List.mem_cons_self a l,
    fun b hb => by
      rcases List.mem_cons.mp hb with h1 | h1
      · exact h1 ▸ Nat.le_refl a
      · exact h b h1⟩

/-! ### Day axis lemmas -/

theorem dateRange_getElem? (s e j : Nat) :
    (dateRange s e)[j]? =
      if s ≤ e ∧ s + j * ticksPerDay ≤ e then some (s + j * ticksPerDay)
      else none := by
  unfold dateRange ticksPerDay
  by_cases hse : s ≤ e
  · simp only [if_pos hse, List.getElem?_map]
    by_cases hj : j < (e - s) / 24 + 1
    · rw [List.getElem?_range hj]
      have hle : s + j * 24 ≤ e := by omega
      simp [hse, hle]
    · have hlen : (List.range ((e - s) / 24 + 1)).length ≤ j := by
        simp only [List.length_range]; omega
      rw [List.getElem?_eq_none hlen]
      have hle : ¬(s + j * 24 ≤ e) := by omega
      simp [hle]
  · have h2 : ¬(s ≤ e ∧ s + j * 24 ≤ e) := fun h => hse h.1
    simp [hse, h2]

theorem mem_dateRange {s e d : Nat} :
    d ∈ dateRange s e ↔ s ≤ e ∧ s ≤ d ∧ d ≤ e ∧ ticksPerDay ∣ (d - s) := by
  unfold dateRange ticksPerDay
  by_cases hse : s ≤ e
  · simp only [if_pos hse, List.mem_map, List.mem_range]
    constructor
    · rintro ⟨k, hk, rfl⟩
      refine ⟨hse, by omega, by omega, by omega⟩
    · rintro ⟨-, h1, h2, h3⟩
      exact ⟨(d - s) / 24, by omega, by omega⟩
  · simp only [if_neg hse, List.not_mem_nil, false_iff]
    intro h
    exact hse h.1

/-! ### Loop iteration lemmas -/

theorem loopFinal_nil (total : Nat → Int) (il : Nat → Bool) (st : Int × Nat) :
    loopFinal total il st [] = st := rfl

theorem loopFinal_cons (total : Nat → Int) (il : Nat → Bool) (st : Int × Nat)
    (p : Nat × Option UStatus) (l : List (Nat × Option UStatus)) :
    loopFinal total il st (p :: l) =
      loopFinal total il (if il p.1 then stepState total st p.1 else st) l := by
  unfold loopFinal
  simp only [List.foldl_cons]

theorem loopFinal_append (total : Nat → Int) (il : Nat → Bool) (st : Int × Nat)
    (l1 l2 : List (Nat × Option UStatus)) :
    loopFinal total il st (l1 ++ l2) =
      loopFinal total il (loopFinal total il st l1) l2 :=
  List.foldl_append _ _ _ _

/-- Positional characterisation of the loop of lines 183-199: row `j` keeps
its cell when outside the loop window, and otherwise receives the status
emitted from the counter state accumulated over the first `j` rows. -/
theorem runLoop_getElem? (total : Nat → Int) (il : Nat → Bool) :
    ∀ (l : List (Nat × Option UStatus)) (st : Int × Nat) (j : Nat),
      (runLoop total il st l)[j]? = (l[j]?).map (fun p =>
        if il p.1 then (p.1, emitCell total (loopFinal total il st (l.take j)) p.1)
        else p) := by
  intro l
  induction l with
  | nil => intro st j; simp [runLoop]
  | cons p rest ih =>
    intro st j
    cases j with
    | zero =>
      simp only [runLoop, List.take_zero, loopFinal_nil, List.getElem?_cons_zero,
        Option.map_some']
      split <;> simp_all
    | succ j =>
      simp only [runLoop, List.getElem?_cons_succ, List.take_succ_cons, loopFinal_cons]
      split
      case isTrue h => rw [List.getElem?_cons_succ, ih]
      case isFalse h => rw [List.getElem?_cons_succ, ih]

/-- Full positional characterisation of `unitdailystatus`: the cell for the
day at position `j` of the axis is `finalCell` evaluated at the counter
state reached at position `j`. -/
theorem unitdailystatus_getElem? (events : List Event) (s e : Nat)
    (inst : Option Nat) (j : Nat) :
    (unitdailystatus events s e inst)[j]? =
      ((dateRange s e)[j]?).map
        (fun d => (d, finalCell events inst e (simStateAt events s e inst j) d)) := by
  unfold unitdailystatus unlock2Pass
  rw [List.getElem?_map, runLoop_getElem?, List.getElem?_map]
  cases h : (dateRange s e)[j]? with
  | none => rfl
  | some d =>
    simp only [Option.map_some']
    unfold finalCell simStateAt
    by_cases hil : inLoopD events inst e d <;>
      by_cases hu2 : geNaT d (unlockdate2 events) <;>
        simp [hil, hu2]

theorem simStateAt_zero (events : List Event) (s e : Nat) (inst : Option Nat) :
    simStateAt events s e inst 0 = (0, 0) := rfl

theorem simStateAt_succ (events : List Event) (s e : Nat) (inst : Option Nat)
    {j d : Nat} (h : (dateRange s e)[j]? = some d) :
    simStateAt events s e inst (j + 1) =
      (if inLoopD events inst e d then
        stepState (dailytopuptotal events) (simStateAt events s e inst j) d
      else simStateAt events s e inst j) := by
  unfold simStateAt
  rw [List.take_succ, List.getElem?_map, h]
  simp only [Option.map_some', Option.toList_some, loopFinal_append]
  simp [loopFinal]

theorem preCell_cases (install u1 : Option Nat) (d : Nat) :
    preCell install u1 d = none ∨ preCell install u1 d = some .S ∨
      preCell install u1 d = some .U := by
  unfold preCell
  split
  · exact Or.inr (Or.inr rfl)
  · split
    · exact Or.inr (Or.inl rfl)
    · exact Or.inl rfl

theorem geNaT_mono {i : Option Nat} {a b : Nat} (hab : a ≤ b)
    (ha : geNaT a i = true) : geNaT b i = true := by
  unfold geNaT at ha ⊢
  cases i with
  | none => cases ha
  | some v =>
    simp only [decide_eq_true_eq] at ha ⊢
    omega

theorem beforeUnlockDay_geNaT_false {events : List Event} {d : Nat}
    (h : beforeUnlockDay events d = true) :
    geNaT d (unlockdate2 events) = false := by
  unfold beforeUnlockDay at h
  unfold geNaT
  cases hm : unlockdate2 events with
  | none => rfl
  | some m =>
    rw [hm] at h
    simp only [decide_eq_true_eq] at h
    have hfl := dayFloor_le m
    simp only [decide_eq_false_iff_not]
    omega

theorem lt_loopBound_of_beforeUnlockDay {events : List Event} {e x : Nat}
    (hb : beforeUnlockDay events x = true) (hx : x ≤ e) :
    x < loopBound events e := by
  cases hh : unlockdate1 events with
  | none =>
    simp only [loopBound, hh, ticksPerDay]
    omega
  | some u =>
    simp only [loopBound, hh]
    unfold unlockdate1 at hh
    cases hlist : unlocktrans events with
    | nil => rw [hlist] at hh; cases hh
    | cons h0 rest =>
      rw [hlist] at hh
      simp only [List.head?_cons, Option.map_some', Option.some.injEq] at hh
      obtain ⟨m, hmin⟩ := min?_ne_none (l := (h0 :: rest).map (fun x => x.ts)) (by simp)
      have hm2 : unlockdate2 events = some m := by
        unfold unlockdate2
        rw [hlist]
        exact hmin
      have hmle : m ≤ h0.ts :=
        min?_le_of_mem hmin (List.mem_map_of_mem _ (List.mem_cons_self h0 rest))
      unfold beforeUnlockDay at hb
      rw [hm2] at hb
      simp only [decide_eq_true_eq] at hb
      have hmono : dayFloor m ≤ dayFloor h0.ts := dayFloor_mono hmle
      omega

/-- From a stored cell that is neither `Stock`, `Unlocked` nor missing,
recover the loop facts that produced it: the day is on the axis, inside the
loop window, not hit by the final unlock overwrite, and the cell is the
emitted status for the counter state at that position. -/
theorem uds_cell_elim {events : List Event} {s e : Nat} {inst : Option Nat}
    {j d : Nat} {cell : Option UStatus}
    (hj : (unitdailystatus events s e inst)[j]? = some (d, cell))
    (hU : cell ≠ some .U) (hS : cell ≠ some .S) (hN : cell ≠ none) :
    (dateRange s e)[j]? = some d ∧ inLoopD events inst e d = true ∧
      geNaT d (unlockdate2 events) = false ∧
      cell = emitCell (dailytopuptotal events) (simStateAt events s e inst j) d := by
  rw [unitdailystatus_getElem?] at hj
  cases haxis : (dateRange s e)[j]? with
  | none => rw [haxis] at hj; cases hj
  | some d0 =>
    rw [haxis, Option.map_some'] at hj
    injection hj with hj
    have hd : d0 = d := congrArg Prod.fst hj
    subst hd
    have hcell : finalCell events inst e (simStateAt events s e inst j) d0 = cell :=
      congrArg Prod.snd hj
    unfold finalCell at hcell
    cases hu2 : geNaT d0 (unlockdate2 events) with
    | true =>
      rw [hu2] at hcell
      simp only [if_true] at hcell
      exact absurd hcell.symm hU
    | false =>
      rw [hu2] at hcell
      simp only [Bool.false_eq_true, if_false] at hcell
      cases hil : inLoopD events inst e d0 with
      | false =>
        rw [hil] at hcell
        simp only [Bool.false_eq_true, if_false] at hcell
        rcases preCell_cases (effInstall events inst) (unlockdate1 events) d0 with
          h | h | h
        · exact absurd (h ▸ hcell).symm hN
        · exact absurd (h ▸ hcell).symm hS
        · exact absurd (h ▸ hcell).symm hU
      | true =>
        rw [hil] at hcell
        simp only [if_true] at hcell
        exact ⟨rfl, rfl, rfl, hcell.symm⟩

/-- Advancing the simulation one day: if day `d` at position `j` is inside
the loop window and the next day is in range and still strictly before the
unlock day, then the next row is the status emitted from the counter state
at position `j + 1`. -/
theorem uds_next_day {events : List Event} {s e : Nat} {inst : Option Nat}
    {j d : Nat}
    (haxis : (dateRange s e)[j]? = some d)
    (hil : inLoopD events inst e d = true)
    (hnext : d + ticksPerDay ≤ e)
    (hbu : beforeUnlockDay events (d + ticksPerDay) = true) :
    (unitdailystatus events s e inst)[j + 1]? =
      some (d + ticksPerDay,
        emitCell (dailytopuptotal events) (simStateAt events s e inst (j + 1))
          (d + ticksPerDay)) := by
  rw [dateRange_getElem?] at haxis
  by_cases hc : s ≤ e ∧ s + j * ticksPerDay ≤ e
  case neg => rw [if_neg hc] at haxis; cases haxis
  rw [if_pos hc] at haxis
  injection haxis with haxis
  have haxis' : (dateRange s e)[j + 1]? = some (d + ticksPerDay) := by
    rw [dateRange_getElem?]
    have h1 : s + (j + 1) * ticksPerDay = d + ticksPerDay := by
      rw [← haxis]; ring
    rw [if_pos ⟨hc.1, by omega⟩, h1]
  rw [unitdailystatus_getElem?, haxis', Option.map_some']
  have hil' : inLoopD events inst e (d + ticksPerDay) = true := by
    unfold inLoopD at hil ⊢
    rw [Bool.and_eq_true] at hil ⊢
    refine ⟨geNaT_mono (by omega) hil.1, ?_⟩
    simp only [decide_eq_true_eq]
    exact lt_loopBound_of_beforeUnlockDay hbu hnext
  unfold finalCell
  rw [beforeUnlockDay_geNaT_false hbu]
  simp only [Bool.false_eq_true, if_false, hil', if_true]

theorem runLoop_take (total : Nat → Int) (il : Nat → Bool) :
    ∀ (l : List (Nat × Option UStatus)) (st : Int × Nat) (n : Nat),
      (runLoop total il st l).take n = runLoop total il st (l.take n) := by
  intro l
  induction l with
  | nil => intro st n; simp [runLoop]
  | cons p rest ih =>
    intro st n
    cases n with
    | zero => simp [runLoop]
    | succ n =>
      simp only [runLoop, List.take_succ_cons]
      by_cases h : il p.1 <;> simp [h, List.take_succ_cons, ih]

theorem runLoop_congr (total : Nat → Int) (il1 il2 : Nat → Bool) :
    ∀ (l : List (Nat × Option UStatus)) (st : Int × Nat),
      (∀ p ∈ l, il1 p.1 = il2 p.1) →
      runLoop total il1 st l = runLoop total il2 st l := by
  intro l
  induction l with
  | nil => intro st _; rfl
  | cons p rest ih =>
    intro st h
    have hp : il1 p.1 = il2 p.1 := h p (List.mem_cons_self p rest)
    have hr : ∀ q ∈ rest, il1 q.1 = il2 q.1 :=
      fun q hq => h q (List.mem_cons_of_mem p hq)
    simp only [runLoop, hp]
    by_cases h2 : il2 p.1 <;> simp [h2, ih _ hr]

theorem unlock2Pass_none (rows : List (Nat × Option UStatus)) :
    unlock2Pass none rows = rows := by
  simp [unlock2Pass, geNaT]

/-! ### Claim theorems about the simulator steps -/

/-- C3: for every unit and day `d` in the simulated range, if the status on
day `d` is `CreditRemaining n`, day `d+1` has zero total top-up and is
strictly before the unlock day, then day `d+1` shows `CreditRemaining (n-1)`
when `n-1 > 0` and `OutOfCredit 0` when `n-1 = 0`. -/
theorem claim_C3 (events : List Event) (s e : Nat) (inst : Option Nat)
    (j d : Nat) (n : Int)
    (hj : (unitdailystatus events s e inst)[j]? = some (d, some (.credit n)))
    (hnext : d + ticksPerDay ≤ e)
    (hzero : dailytopuptotal events (d + ticksPerDay) = 0)
    (hbu : beforeUnlockDay events (d + ticksPerDay) = true) :
    (unitdailystatus events s e inst)[j + 1]? =
      some (d + ticksPerDay,
        if 0 < n - 1 then some (.credit (n - 1)) else some (.ooc 0)) := by
  obtain ⟨haxis, hil, -, hcell⟩ :=
    uds_cell_elim hj (by simp) (by simp) (by simp)
  unfold emitCell at hcell
  by_cases hpos :
      0 < (simStateAt events s e inst j).1 + dailytopuptotal events d * 7
  case neg =>
    rw [if_neg hpos] at hcell
    cases hcell
  case pos =>
    rw [if_pos hpos] at hcell
    simp only [Option.some.injEq, UStatus.credit.injEq] at hcell
    have hstep := simStateAt_succ events s e inst haxis
    simp only [hil, if_true] at hstep
    have hstate : simStateAt events s e inst (j + 1) = (n - 1, 0) := by
      rw [hstep]
      unfold stepState
      rw [if_pos hpos, ← hcell]
    rw [uds_next_day haxis hil hnext hbu, hstate]
    unfold emitCell
    simp [hzero]

/-- C3 witness: a unit with a single 1-week top-up on day 0; on day 0 the
status is `CreditRemaining 7` and on day 1 it is `CreditRemaining 6`. -/
theorem claim_C3_witness :
    (unitdailystatus [⟨"u", 0, 3, some 1⟩] 0 240 none)[0]? =
        some (0, some (.credit 7)) ∧
      (unitdailystatus [⟨"u", 0, 3, some 1⟩] 0 240 none)[0 + 1]? =
        some (0 + ticksPerDay,
          if 0 < (7 : Int) - 1 then some (.credit (7 - 1)) else some (.ooc 0)) :=
  ⟨by decide,
    claim_C3 [⟨"u", 0, 3, some 1⟩] 0 240 none 0 0 7 (by decide) (by decide)
      (by decide) (by decide)⟩

/-- C4: for every unit and day `d` in the simulated range, if the status on
day `d` is `OutOfCredit k`, day `d+1` has zero total top-up and is strictly
before the unlock day, then day `d+1` shows `OutOfCredit (k+1)`. -/
theorem claim_C4 (events : List Event) (s e : Nat) (inst : Option Nat)
    (j d : Nat) (k : Nat)
    (hj : (unitdailystatus events s e inst)[j]? = some (d, some (.ooc k)))
    (hnext : d + ticksPerDay ≤ e)
    (hzero : dailytopuptotal events (d + ticksPerDay) = 0)
    (hbu : beforeUnlockDay events (d + ticksPerDay) = true) :
    (unitdailystatus events s e inst)[j + 1]? =
      some (d + ticksPerDay, some (.ooc (k + 1))) := by
  obtain ⟨haxis, hil, -, hcell⟩ :=
    uds_cell_elim hj (by simp) (by simp) (by simp)
  unfold emitCell at hcell
  by_cases hpos :
      0 < (simStateAt events s e inst j).1 + dailytopuptotal events d * 7
  case pos =>
    rw [if_pos hpos] at hcell
    cases hcell
  case neg =>
    rw [if_neg hpos] at hcell
    simp only [Option.some.injEq, UStatus.ooc.injEq] at hcell
    have hstep := simStateAt_succ events s e inst haxis
    simp only [hil, if_true] at hstep
    have hstate : simStateAt events s e inst (j + 1) =
        ((simStateAt events s e inst j).1 + dailytopuptotal events d * 7, k + 1) := by
      rw [hstep]
      unfold stepState
      rw [if_neg hpos, hcell]
    rw [uds_next_day haxis hil hnext hbu, hstate]
    unfold emitCell
    have hneg : ¬(0 < (simStateAt events s e inst j).1 +
        dailytopuptotal events d * 7 + dailytopuptotal events (d + ticksPerDay) * 7) := by
      rw [hzero]
      omega
    simp only [hzero] at hneg ⊢
    rw [if_neg (by simpa using hneg)]

/-- C2: a unit installed on day 0 whose only event is a 1-week top-up on
day 0, with no unlock and an end date at least day 9, shows
`CreditRemaining 7 .. 1` on days 0-6, `OutOfCredit 0` (numeric value 0) on
day 7, `OutOfCredit 1` (value -1) on day 8 and `OutOfCredit 2` (value -2)
on day 9. -/
theorem claim_C2 (e : Nat) (he : 9 * ticksPerDay ≤ e) :
    (unitdailystatus [⟨"u", 0, 3, some 1⟩] 0 e none).take 10 =
      [(0, some (.credit 7)), (24, some (.credit 6)), (48, some (.credit 5)),
       (72, some (.credit 4)), (96, some (.credit 3)), (120, some (.credit 2)),
       (144, some (.credit 1)), (168, some (.ooc 0)), (192, some (.ooc 1)),
       (216, some (.ooc 2))] := by
  unfold ticksPerDay at he
  unfold unitdailystatus
  rw [show unlockdate2 [⟨"u", 0, 3, some 1⟩] = none from rfl, unlock2Pass_none,
    runLoop_take, ← List.map_take]
  have haxis : (dateRange 0 e).take 10 =
      (List.range 10).map (fun k => 0 + k * ticksPerDay) := by
    unfold dateRange ticksPerDay
    rw [if_pos (Nat.zero_le e), ← List.map_take, List.take_range,
      Nat.min_eq_left (by omega)]
  rw [haxis, List.map_map]
  rw [runLoop_congr _ _ (fun _ => true) _ _ ?_]
  · decide
  · intro p hp
    simp only [List.mem_map, List.mem_range, Function.comp] at hp
    obtain ⟨k, hk, rfl⟩ := hp
    have h1 : effInstall [⟨"u", 0, 3, some 1⟩] none = some 0 := rfl
    have h2 : loopBound [⟨"u", 0, 3, some 1⟩] e = e + 365 * ticksPerDay := rfl
    simp only [inLoopD, h1, h2, geNaT, ticksPerDay, Bool.and_eq_true,
      decide_eq_true_eq]
    omega

/-- C2 witness: the scenario with the end date at day 9 exactly. -/
theorem claim_C2_witness :
    9 * ticksPerDay ≤ 216 ∧
      (unitdailystatus [⟨"u", 0, 3, some 1⟩] 0 216 none).take 10 =
        [(0, some (.credit 7)), (24, some (.credit 6)), (48, some (.credit 5)),
         (72, some (.credit 4)), (96, some (.credit 3)), (120, some (.credit 2)),
         (144, some (.credit 1)), (168, some (.ooc 0)), (192, some (.ooc 1)),
         (216, some (.ooc 2))] :=
  ⟨by decide, claim_C2 216 (by decide)⟩

/-- C4 witness: same single-top-up unit; day 7 shows `OutOfCredit 0` and
day 8 shows `OutOfCredit 1`. -/
theorem claim_C4_witness :
    (unitdailystatus [⟨"u", 0, 3, some 1⟩] 0 240 none)[7]? =
        some (168, some (.ooc 0)) ∧
      (unitdailystatus [⟨"u", 0, 3, some 1⟩] 0 240 none)[7 + 1]? =
        some (168 + ticksPerDay, some (.ooc (0 + 1))) :=
  ⟨by decide,
    claim_C4 [⟨"u", 0, 3, some 1⟩] 0 240 none 7 168 0 (by decide) (by decide)
      (by decide) (by decide)⟩

theorem geNaT_u1_false_of_beforeUnlockDay {events : List Event} {d : Nat}
    (hb : beforeUnlockDay events d = true) :
    geNaT d (unlockdate1 events) = false := by
  cases hh : unlockdate1 events with
  | none => rfl
  | some u =>
    unfold unlockdate1 at hh
    cases hlist : unlocktrans events with
    | nil => rw [hlist] at hh; cases hh
    | cons h0 rest =>
      rw [hlist] at hh
      simp only [List.head?_cons, Option.map_some', Option.some.injEq] at hh
      obtain ⟨m, hmin⟩ := min?_ne_none (l := (h0 :: rest).map (fun x => x.ts)) (by simp)
      have hm2 : unlockdate2 events = some m := by
        unfold unlockdate2
        rw [hlist]
        exact hmin
      have hmle : m ≤ h0.ts :=
        min?_le_of_mem hmin (List.mem_map_of_mem _ (List.mem_cons_self h0 rest))
      unfold beforeUnlockDay at hb
      rw [hm2] at hb
      simp only [decide_eq_true_eq] at hb
      have hmono : dayFloor m ≤ dayFloor h0.ts := dayFloor_mono hmle
      unfold geNaT
      simp only [decide_eq_false_iff_not]
      omega

theorem runLoop_false (total : Nat → Int) :
    ∀ (l : List (Nat × Option UStatus)) (st : Int × Nat),
      runLoop total (fun _ => false) st l = l := by
  intro l
  induction l with
  | nil => intro st; rfl
  | cons p rest ih => intro st; simp [runLoop, ih]

/-- C5 counterexample: a unit whose only event is an unlock at timestamp 0,
with the install date overridden to day 2; day 0 is strictly before the
install date but is stored as Unlocked (the unlock overwrite of the source
runs after the Stock pass), not Stock as the claim requires. -/
theorem claim_C5_counterexample :
    (unitdailystatus [⟨"u", 0, 5, none⟩] 0 72 (some 48))[0]? =
        some (0, some .U) ∧
      (unitdailystatus [⟨"u", 0, 5, none⟩] 0 72 (some 48))[0]? ≠
        some (0, some .S) := by
  decide

/-- C5 (amended): for every axis day `d` strictly before the (possibly
overridden) install date AND strictly before the unlock day when an unlock
event exists, the stored status is Stock; with a later overridden install
date, days carrying transactions before the override are still Stock, but
days on/after an unlock event show Unlocked instead. -/
theorem claim_C5_amended (events : List Event) (s e : Nat) (inst : Option Nat)
    (j d : Nat)
    (haxis : (dateRange s e)[j]? = some d)
    (hlt : ltNaT d (effInstall events inst) = true)
    (hbu : beforeUnlockDay events d = true) :
    (unitdailystatus events s e inst)[j]? = some (d, some .S) := by
  have hu2 := beforeUnlockDay_geNaT_false hbu
  have hu1 := geNaT_u1_false_of_beforeUnlockDay hbu
  have hge : geNaT d (effInstall events inst) = false := by
    unfold ltNaT at hlt
    cases hi : effInstall events inst with
    | none => rw [hi] at hlt; cases hlt
    | some i =>
      rw [hi] at hlt
      simp only [decide_eq_true_eq] at hlt
      unfold geNaT
      simp only [decide_eq_false_iff_not]
      omega
  have hil : inLoopD events inst e d = false := by
    unfold inLoopD
    rw [hge]
    rfl
  rw [unitdailystatus_getElem?, haxis, Option.map_some']
  unfold finalCell preCell
  simp [hu2, hil, hu1, hlt]

/-- C5 witness for the amended statement: a unit whose first event is a
top-up on day 2 but whose install date is overridden to day 4; day 2, which
carries the transaction, is still Stock. -/
theorem claim_C5_amended_witness :
    (dateRange 0 120)[2]? = some 48 ∧
      ltNaT 48 (effInstall [⟨"u", 48, 3, some 1⟩] (some 96)) = true ∧
      (unitdailystatus [⟨"u", 48, 3, some 1⟩] 0 120 (some 96))[2]? =
        some (48, some .S) :=
  ⟨by decide, by decide,
    claim_C5_amended [⟨"u", 48, 3, some 1⟩] 0 120 (some 96) 2 48 (by decide)
      (by decide) (by decide)⟩

/-- C7 counterexample: invoked directly on an empty event sequence the
simulator produces a missing (NaN) status, not Stock, on every day; day 0
of a two-day range is not Stock. -/
theorem claim_C7_counterexample :
    unitdailystatus ([] : List Event) 0 24 none = [(0, none), (24, none)] ∧
      (unitdailystatus ([] : List Event) 0 24 none)[0]? ≠
        some (0, some .S) := by
  decide

/-- C7 (amended): on an empty event sequence the simulator does not fail
and returns one row per day of the range, but every status is missing
(NaN) rather than Stock: the install date is NaT, every comparison with it
is false, so the Stock pass marks nothing and the loop never runs. -/
theorem claim_C7_amended (s e : Nat) :
    unitdailystatus ([] : List Event) s e none =
      (dateRange s e).map (fun d => (d, (none : Option UStatus))) := by
  unfold unitdailystatus
  rw [show unlockdate2 ([] : List Event) = none from rfl, unlock2Pass_none]
  have hpre : ∀ d : Nat,
      preCell (effInstall ([] : List Event) none) (unlockdate1 ([] : List Event)) d =
        (none : Option UStatus) := by
    intro d
    rfl
  simp only [hpre]
  have hil : ∀ d : Nat, inLoopD ([] : List Event) none e d = false := by
    intro d
    rfl
  rw [runLoop_congr _ _ (fun _ => false) _ _ (fun p _ => hil p.1), runLoop_false]

theorem dailytopuptotal_nonneg :
    ∀ (events : List Event), (∀ x ∈ events, 0 ≤ x.topupvalue.getD 0) →
      ∀ d, 0 ≤ dailytopuptotal events d := by
  intro events
  induction events with
  | nil => intro _ d; simp [dailytopuptotal]
  | cons x rest ih =>
    intro h d
    have h1 : 0 ≤ x.topupvalue.getD 0 := h x (List.mem_cons_self _ _)
    have h2 := ih (fun y hy => h y (List.mem_cons_of_mem _ hy)) d
    unfold dailytopuptotal at h2 ⊢
    rw [List.filter_cons]
    by_cases hx : (dayFloor x.ts == d) = true
    · rw [if_pos hx]
      simp only [List.map_cons, List.sum_cons]
      omega
    · rw [if_neg hx]
      exact h2

theorem loopFinal_fst_nonneg (total : Nat → Int) (il : Nat → Bool)
    (htot : ∀ d, 0 ≤ total d) :
    ∀ (l : List (Nat × Option UStatus)) (st : Int × Nat), 0 ≤ st.1 →
      0 ≤ (loopFinal total il st l).1 := by
  intro l
  induction l with
  | nil => intro st h; exact h
  | cons p rest ih =>
    intro st h
    rw [loopFinal_cons]
    apply ih
    by_cases hp : il p.1 = true
    · rw [if_pos hp]
      unfold stepState
      have := htot p.1
      by_cases hc : 0 < st.1 + total p.1 * 7
      · rw [if_pos hc]
        simp only []
        omega
      · rw [if_neg hc]
        simp only []
        omega
    · rw [if_neg hp]
      exact h

/-- C9: with non-negative per-day top-up totals, the credit counter is
never negative at the start of any day; an out-of-credit day leaves the
counter at exactly 0; and a positive top-up of `w` weeks arriving while the
unit is out of credit yields exactly `CreditRemaining (7*w)` on that day. -/
theorem claim_C9 (events : List Event) (s e : Nat) (inst : Option Nat)
    (hpos : ∀ d, 0 ≤ dailytopuptotal events d) :
    (∀ j, 0 ≤ (simStateAt events s e inst j).1) ∧
    (∀ j d k, (unitdailystatus events s e inst)[j]? = some (d, some (.ooc k)) →
      (simStateAt events s e inst (j + 1)).1 = 0) ∧
    (∀ j d k w, (unitdailystatus events s e inst)[j]? = some (d, some (.ooc k)) →
      d + ticksPerDay ≤ e →
      beforeUnlockDay events (d + ticksPerDay) = true →
      dailytopuptotal events (d + ticksPerDay) = w → 0 < w →
      (unitdailystatus events s e inst)[j + 1]? =
        some (d + ticksPerDay, some (.credit (7 * w)))) := by
  have hnn : ∀ j, 0 ≤ (simStateAt events s e inst j).1 := by
    intro j
    unfold simStateAt
    exact loopFinal_fst_nonneg _ _ hpos _ _ (le_refl 0)
  have hzero : ∀ j d k,
      (unitdailystatus events s e inst)[j]? = some (d, some (.ooc k)) →
      (simStateAt events s e inst (j + 1)).1 = 0 := by
    intro j d k hj
    obtain ⟨haxis, hil, -, hcell⟩ :=
      uds_cell_elim hj (by simp) (by simp) (by simp)
    unfold emitCell at hcell
    by_cases hc : 0 < (simStateAt events s e inst j).1 + dailytopuptotal events d * 7
    · rw [if_pos hc] at hcell
      cases hcell
    · rw [if_neg hc] at hcell
      have hstep := simStateAt_succ events s e inst haxis
      simp only [hil, if_true] at hstep
      rw [hstep]
      unfold stepState
      rw [if_neg hc]
      have h1 := hnn j
      have h2 := hpos d
      simp only []
      omega
  refine ⟨hnn, hzero, ?_⟩
  intro j d k w hj hnext hbu hw hwpos
  obtain ⟨haxis, hil, -, -⟩ := uds_cell_elim hj (by simp) (by simp) (by simp)
  have h0 := hzero j d k hj
  rw [uds_next_day haxis hil hnext hbu]
  unfold emitCell
  rw [hw, h0, if_pos (by omega)]
  have hcomm : (0 : Int) + w * 7 = 7 * w := by ring
  rw [hcomm]

/-- C9 witness: a unit topping up 1 week on day 0 and 2 weeks on day 10;
day 9 is `OutOfCredit 2` and day 10 is exactly `CreditRemaining 14`. -/
theorem claim_C9_witness :
    (unitdailystatus [⟨"u", 0, 3, some 1⟩, ⟨"u", 240, 3, some 2⟩]
        0 264 none)[9]? = some (216, some (.ooc 2)) ∧
      (unitdailystatus [⟨"u", 0, 3, some 1⟩, ⟨"u", 240, 3, some 2⟩]
        0 264 none)[9 + 1]? = some (216 + ticksPerDay, some (.credit (7 * 2))) :=
  ⟨by decide,
    (claim_C9 [⟨"u", 0, 3, some 1⟩, ⟨"u", 240, 3, some 2⟩] 0 264 none
        (dailytopuptotal_nonneg _ (by decide))).2.2 9 216 2 2 (by decide)
      (by decide) (by decide) (by decide) (by decide)⟩

/-! ### Unlock events: only the earliest matters -/

/-- The event list with every unlock (code 5) event after the first
removed.  Used to state that later unlock events have no effect. -/
def keepFirstUnlock : List Event → List Event
  | [] => []
  | x :: rest =>
    if x.function_code == 5 then
      x :: rest.filter (fun y => !(y.function_code == 5))
    else
      x :: keepFirstUnlock rest

theorem unlocktrans_keepFirstUnlock :
    ∀ (l : List Event),
      unlocktrans (keepFirstUnlock l) = (unlocktrans l).take 1 := by
  intro l
  induction l with
  | nil => rfl
  | cons x rest ih =>
    by_cases hx : (x.function_code == 5) = true
    · have hnil : unlocktrans (rest.filter (fun y => !(y.function_code == 5))) = [] := by
        unfold unlocktrans
        apply List.filter_eq_nil_iff.mpr
        intro a ha
        have h2 := (List.mem_filter.mp ha).2
        simp only [Bool.not_eq_true'] at h2
        simp [h2]
      simp only [keepFirstUnlock, if_pos hx]
      unfold unlocktrans at hnil ⊢
      rw [List.filter_cons, List.filter_cons, if_pos hx, if_pos hx, hnil]
      simp
    · simp only [keepFirstUnlock, if_neg hx]
      unfold unlocktrans at ih ⊢
      rw [List.filter_cons, List.filter_cons, if_neg hx, if_neg hx]
      exact ih

theorem keepFirstUnlock_sublist : ∀ (l : List Event), (keepFirstUnlock l).Sublist l := by
  intro l
  induction l with
  | nil => exact List.Sublist.refl _
  | cons x rest ih =>
    by_cases hx : (x.function_code == 5) = true
    · simp only [keepFirstUnlock, if_pos hx]
      exact List.Sublist.cons₂ x (List.filter_sublist rest)
    · simp only [keepFirstUnlock, if_neg hx]
      exact List.Sublist.cons₂ x ih

theorem unlockdate2_eq_head_ts {events : List Event}
    (hsort : events.Pairwise (fun a b => a.ts ≤ b.ts)) {h0 : Event}
    {rest : List Event} (hlist : unlocktrans events = h0 :: rest) :
    unlockdate2 events = some h0.ts := by
  have hps : (unlocktrans events).Pairwise (fun a b => a.ts ≤ b.ts) :=
    List.Pairwise.sublist (List.filter_sublist events) hsort
  rw [hlist] at hps
  unfold unlockdate2
  rw [hlist]
  simp only [List.map_cons]
  apply min?_cons_of_le
  intro v hv
  obtain ⟨y, hy, rfl⟩ := List.mem_map.mp hv
  exact (List.pairwise_cons.mp hps).1 y hy

theorem unlockdate1_eq_unlockDay {events : List Event}
    (hsort : events.Pairwise (fun a b => a.ts ≤ b.ts)) {m : Nat}
    (hm : unlockdate2 events = some m) :
    unlockdate1 events = some (dayFloor m) := by
  cases hlist : unlocktrans events with
  | nil =>
    unfold unlockdate2 at hm
    rw [hlist] at hm
    cases hm
  | cons h0 rest =>
    have h2 := unlockdate2_eq_head_ts hsort hlist
    rw [hm] at h2
    injection h2 with h2
    unfold unlockdate1
    rw [hlist]
    simp [h2]

theorem unlockdate1_keepFirstUnlock (events : List Event) :
    unlockdate1 (keepFirstUnlock events) = unlockdate1 events := by
  unfold unlockdate1
  rw [unlocktrans_keepFirstUnlock]
  cases unlocktrans events with
  | nil => rfl
  | cons h0 rest => rfl

theorem unlockdate2_keepFirstUnlock {events : List Event}
    (hsort : events.Pairwise (fun a b => a.ts ≤ b.ts)) :
    unlockdate2 (keepFirstUnlock events) = unlockdate2 events := by
  cases hlist : unlocktrans events with
  | nil =>
    have h1 := unlocktrans_keepFirstUnlock events
    rw [hlist] at h1
    unfold unlockdate2
    rw [h1, hlist]
    rfl
  | cons h0 rest =>
    have h1 := unlocktrans_keepFirstUnlock events
    rw [hlist] at h1
    have h2 := unlockdate2_eq_head_ts hsort hlist
    have h3 : unlockdate2 (keepFirstUnlock events) = some h0.ts := by
      unfold unlockdate2
      rw [h1]
      rfl
    rw [h3, h2]

theorem minDayFloor_sorted {x : Event} {rest : List Event}
    (hsort : (x :: rest).Pairwise (fun a b => a.ts ≤ b.ts)) :
    ((x :: rest).map (fun y => dayFloor y.ts)).min? = some (dayFloor x.ts) := by
  simp only [List.map_cons]
  apply min?_cons_of_le
  intro v hv
  obtain ⟨y, hy, rfl⟩ := List.mem_map.mp hv
  exact dayFloor_mono ((List.pairwise_cons.mp hsort).1 y hy)

theorem effInstall_keepFirstUnlock {events : List Event}
    (hsort : events.Pairwise (fun a b => a.ts ≤ b.ts)) (inst : Option Nat) :
    effInstall (keepFirstUnlock events) inst = effInstall events inst := by
  cases inst with
  | some d => rfl
  | none =>
    cases events with
    | nil => rfl
    | cons x rest =>
      have hsorted2 : (keepFirstUnlock (x :: rest)).Pairwise
          (fun a b => a.ts ≤ b.ts) :=
        List.Pairwise.sublist (keepFirstUnlock_sublist (x :: rest)) hsort
      unfold effInstall
      by_cases hx : (x.function_code == 5) = true
      · simp only [keepFirstUnlock, if_pos hx] at hsorted2 ⊢
        rw [minDayFloor_sorted hsorted2, minDayFloor_sorted hsort]
      · simp only [keepFirstUnlock, if_neg hx] at hsorted2 ⊢
        rw [minDayFloor_sorted hsorted2, minDayFloor_sorted hsort]

theorem dailytopuptotal_filter_not5 :
    ∀ (l : List Event), (∀ x ∈ l, x.function_code = 5 → x.topupvalue = none) →
      ∀ d, dailytopuptotal (l.filter (fun y => !(y.function_code == 5))) d =
        dailytopuptotal l d := by
  intro l
  induction l with
  | nil => intro _ d; rfl
  | cons x rest ih =>
    intro h d
    have hrest := ih (fun y hy => h y (List.mem_cons_of_mem _ hy)) d
    by_cases hx : (x.function_code == 5) = true
    · have hval : x.topupvalue = none :=
        h x (List.mem_cons_self _ _) (by simpa using hx)
      have hxz : dailytopuptotal (x :: rest) d = dailytopuptotal rest d := by
        unfold dailytopuptotal
        rw [List.filter_cons]
        by_cases hd : (dayFloor x.ts == d) = true
        · rw [if_pos hd]
          simp [hval]
        · rw [if_neg hd]
      rw [List.filter_cons, if_neg (by simp [hx]), hrest, hxz]
    · rw [List.filter_cons, if_pos (by simp [Bool.not_eq_true'] at hx ⊢; exact hx)]
      unfold dailytopuptotal at hrest ⊢
      rw [List.filter_cons, List.filter_cons]
      by_cases hd : (dayFloor x.ts == d) = true
      · rw [if_pos hd, if_pos hd]
        simp only [List.map_cons, List.sum_cons]
        omega
      · rw [if_neg hd, if_neg hd]
        exact hrest

theorem dailytopuptotal_keepFirstUnlock :
    ∀ (l : List Event), (∀ x ∈ l, x.function_code = 5 → x.topupvalue = none) →
      ∀ d, dailytopuptotal (keepFirstUnlock l) d = dailytopuptotal l d := by
  intro l
  induction l with
  | nil => intro _ _; rfl
  | cons x rest ih =>
    intro h d
    by_cases hx : (x.function_code == 5) = true
    · simp only [keepFirstUnlock, if_pos hx]
      have hrest := dailytopuptotal_filter_not5 rest
        (fun y hy => h y (List.mem_cons_of_mem _ hy)) d
      unfold dailytopuptotal at hrest ⊢
      rw [List.filter_cons, List.filter_cons]
      by_cases hd : (dayFloor x.ts == d) = true
      · rw [if_pos hd, if_pos hd]
        simp only [List.map_cons, List.sum_cons]
        omega
      · rw [if_neg hd, if_neg hd]
        exact hrest
    · simp only [keepFirstUnlock, if_neg hx]
      have hrest := ih (fun y hy => h y (List.mem_cons_of_mem _ hy)) d
      unfold dailytopuptotal at hrest ⊢
      rw [List.filter_cons, List.filter_cons]
      by_cases hd : (dayFloor x.ts == d) = true
      · rw [if_pos hd, if_pos hd]
        simp only [List.map_cons, List.sum_cons]
        omega
      · rw [if_neg hd, if_neg hd]
        exact hrest

/-- C1: for a unit whose events are in timestamp order and contain at least
one unlock event, every axis day on/after the calendar day of the earliest
unlock event is stored as Unlocked, whatever the credit arithmetic would
give; and, unlock events carrying no top-up value (as in the source feed,
where code 5 has no value), removing every unlock event after the first
leaves the whole history unchanged, so later unlock events have no effect
on any day. -/
theorem claim_C1 (events : List Event) (s e : Nat) (inst : Option Nat)
    (hsort : events.Pairwise (fun a b => a.ts ≤ b.ts)) :
    (∀ (u j d : Nat), unlockDayOpt events = some u → u ≤ d →
      (dateRange s e)[j]? = some d →
      (unitdailystatus events s e inst)[j]? = some (d, some .U)) ∧
    ((∀ x ∈ events, x.function_code = 5 → x.topupvalue = none) →
      unitdailystatus events s e inst =
        unitdailystatus (keepFirstUnlock events) s e inst) := by
  constructor
  · intro u j d hu hud haxis
    rw [unitdailystatus_getElem?, haxis, Option.map_some']
    unfold unlockDayOpt at hu
    cases hm : unlockdate2 events with
    | none => rw [hm] at hu; cases hu
    | some m =>
      rw [hm] at hu
      simp only [Option.map_some', Option.some.injEq] at hu
      have hu1 : unlockdate1 events = some (dayFloor m) :=
        unlockdate1_eq_unlockDay hsort hm
      by_cases hge : geNaT d (unlockdate2 events) = true
      · unfold finalCell
        rw [hge]
        simp
      · have hgeb : geNaT d (unlockdate2 events) = false :=
          Bool.eq_false_iff.mpr hge
        have hil : inLoopD events inst e d = false := by
          simp only [inLoopD, loopBound, hu1]
          have hdec : decide (d < dayFloor m) = false := by
            simp only [decide_eq_false_iff_not]
            omega
          rw [hdec, Bool.and_false]
        have hu1g : geNaT d (unlockdate1 events) = true := by
          rw [hu1]
          unfold geNaT
          simp only [decide_eq_true_eq]
          omega
        unfold finalCell preCell
        simp [hgeb, hil, hu1g]
  · intro hvals
    have ht : dailytopuptotal (keepFirstUnlock events) = dailytopuptotal events :=
      funext (fun d => dailytopuptotal_keepFirstUnlock events hvals d)
    have hi : effInstall (keepFirstUnlock events) inst = effInstall events inst :=
      effInstall_keepFirstUnlock hsort inst
    have h1 := unlockdate1_keepFirstUnlock events
    have h2 := unlockdate2_keepFirstUnlock hsort
    have hb : loopBound (keepFirstUnlock events) e = loopBound events e := by
      unfold loopBound
      rw [h1]
    have hil : inLoopD (keepFirstUnlock events) inst e = inLoopD events inst e := by
      funext d
      unfold inLoopD
      rw [hi, hb]
    unfold unitdailystatus
    rw [ht, hi, h1, h2, hil]

/-- C1 witness: a sorted unit with a top-up on day 0 and two unlock events
(day 1 and day 2); day 1 is Unlocked, and dropping the second unlock event
leaves the history unchanged. -/
theorem claim_C1_witness :
    List.Pairwise (fun a b => a.ts ≤ b.ts)
        [(⟨"u", 0, 3, some 1⟩ : Event), ⟨"u", 30, 5, none⟩, ⟨"u", 60, 5, none⟩] ∧
      (unitdailystatus
          [⟨"u", 0, 3, some 1⟩, ⟨"u", 30, 5, none⟩, ⟨"u", 60, 5, none⟩]
          0 96 none)[1]? = some (24, some .U) ∧
      unitdailystatus
          [⟨"u", 0, 3, some 1⟩, ⟨"u", 30, 5, none⟩, ⟨"u", 60, 5, none⟩]
          0 96 none =
        unitdailystatus
          (keepFirstUnlock
            [⟨"u", 0, 3, some 1⟩, ⟨"u", 30, 5, none⟩, ⟨"u", 60, 5, none⟩])
          0 96 none :=
  ⟨by decide,
    (claim_C1 [⟨"u", 0, 3, some 1⟩, ⟨"u", 30, 5, none⟩, ⟨"u", 60, 5, none⟩]
        0 96 none (by decide)).1 24 1 24 (by decide) (by decide) (by decide),
    (claim_C1 [⟨"u", 0, 3, some 1⟩, ⟨"u", 30, 5, none⟩, ⟨"u", 60, 5, none⟩]
        0 96 none (by decide)).2 (by decide)⟩

/-! ### Aggregator lemmas -/

theorem lookup_cons_ite {k w : String} {v : UnitHistory} {es : UHT} :
    ((k, v) :: es).lookup w = if w == k then some v else es.lookup w := by
  cases hk : w == k with
  | true => simp [List.lookup_cons, hk]
  | false => simp [List.lookup_cons, hk]

theorem lookup_append_left {tbl1 tbl2 : UHT} {w : String}
    (hw : (tbl1.lookup w).isSome = true) :
    (tbl1 ++ tbl2).lookup w = tbl1.lookup w := by
  induction tbl1 with
  | nil => simp [List.lookup] at hw
  | cons p rest ih =>
    rcases p with ⟨k, v⟩
    rw [List.cons_append, lookup_cons_ite, lookup_cons_ite]
    by_cases hk : (w == k) = true
    · rw [if_pos hk, if_pos hk]
    · rw [if_neg hk, if_neg hk]
      rw [lookup_cons_ite, if_neg hk] at hw
      exact ih hw

theorem foldl_join_eq (p : String → Prop) [DecidablePred p]
    (g : String → UnitHistory) :
    ∀ (L : List String) (init : UHT),
      L.foldl (fun tbl u => if p u then tbl ++ [(u, g u)] else tbl) init =
        init ++ L.filterMap (fun u => if p u then some (u, g u) else none) := by
  intro L
  induction L with
  | nil => intro init; simp
  | cons u L ih =>
    intro init
    simp only [List.foldl_cons, List.filterMap_cons]
    by_cases hp : p u
    · rw [if_pos hp, if_pos hp, ih]
      simp
    · rw [if_neg hp, if_neg hp, ih]

theorem lookup_filterMap_none (p : String → Prop) [DecidablePred p]
    (g : String → UnitHistory) :
    ∀ (L : List String) (u : String), u ∉ L →
      (L.filterMap (fun v => if p v then some (v, g v) else none)).lookup u =
        none := by
  intro L
  induction L with
  | nil => intro u _; rfl
  | cons v L ih =>
    intro u hu
    have hne : (u == v) = false := by
      simp only [beq_eq_false_iff_ne, ne_eq]
      intro h
      exact hu (h ▸ List.mem_cons_self v L)
    have hrest := ih u (fun h => hu (List.mem_cons_of_mem v h))
    simp only [List.filterMap_cons]
    by_cases hp : p v
    · rw [if_pos hp, lookup_cons_ite, hne]
      simp only [Bool.false_eq_true, if_false]
      exact hrest
    · rw [if_neg hp]
      exact hrest

theorem lookup_filterMap_mem (p : String → Prop) [DecidablePred p]
    (g : String → UnitHistory) :
    ∀ (L : List String) (u : String), L.Nodup → u ∈ L →
      (L.filterMap (fun v => if p v then some (v, g v) else none)).lookup u =
        if p u then some (g u) else none := by
  intro L
  induction L with
  | nil => intro u _ hu; cases hu
  | cons v L ih =>
    intro u hnd hu
    obtain ⟨hvL, hndL⟩ := List.nodup_cons.mp hnd
    simp only [List.filterMap_cons]
    by_cases huv : u = v
    · subst huv
      by_cases hp : p u
      · rw [if_pos hp, if_pos hp, lookup_cons_ite, if_pos (by simp)]
      · rw [if_neg hp, if_neg hp]
        exact lookup_filterMap_none p g L u hvL
    · have hu2 : u ∈ L := by
        rcases List.mem_cons.mp hu with h | h
        · exact absurd h huv
        · exact h
      have hne : (u == v) = false := by
        simp only [beq_eq_false_iff_ne, ne_eq]
        exact huv
      by_cases hp : p v
      · rw [if_pos hp, lookup_cons_ite, hne]
        simp only [Bool.false_eq_true, if_false]
        exact ih u hndL hu2
      · rw [if_neg hp]
        exact ih u hndL hu2

theorem mem_unitsOf {feed : List Event} {u : String} :
    u ∈ unitsOf feed ↔ unittransOf u feed ≠ [] := by
  unfold unitsOf unittransOf
  rw [List.mem_dedup, List.mem_map]
  constructor
  · rintro ⟨x, hx, rfl⟩
    intro hnil
    rw [List.filter_eq_nil_iff] at hnil
    exact hnil x hx (by simp)
  · intro hne
    rcases hx : feed.filter (fun x => x.unit_id == u) with _ | ⟨x, rest⟩
    · exact absurd hx hne
    · have hmem : x ∈ feed.filter (fun x => x.unit_id == u) :=
        hx ▸ List.mem_cons_self x rest
      obtain ⟨hin, hq⟩ := List.mem_filter.mp hmem
      exact ⟨x, hin, by simpa using hq⟩

/-- The final contents of the table: one column per unit with at least one
transaction, holding exactly the simulated history of that unit. -/
theorem lookup_unithistorytable (feed : List Event) (u : String) :
    (unithistorytable feed).lookup u =
      if unittransOf u feed ≠ [] then
        some (unitdailystatus (unittransOf u feed) (startdate feed)
          (enddate feed) none)
      else none := by
  unfold unithistorytable joinColumn
  rw [foldl_join_eq (fun v => (unittransOf v feed).length > 0)
    (fun v => unitdailystatus (unittransOf v feed) (startdate feed)
      (enddate feed) none)]
  simp only [List.nil_append]
  by_cases hu : u ∈ unitsOf feed
  · have hnd : (unitsOf feed).Nodup := List.nodup_dedup _
    rw [lookup_filterMap_mem _ _ _ u hnd hu]
    have hne := mem_unitsOf.mp hu
    rw [if_pos (by simpa [List.length_pos] using hne), if_pos hne]
  · rw [lookup_filterMap_none _ _ _ u hu]
    have hnil : unittransOf u feed = [] := by
      by_contra hne
      exact hu (mem_unitsOf.mpr hne)
    rw [if_neg (by simp [hnil])]

/-! ### Aggregator claims -/

/-- C6: the shared date axis is derived from the whole feed: startdate is
midnight of the earliest event, enddate is midnight of the day AFTER the
latest event, the axis holds exactly the calendar days between them
inclusive, and in particular it contains the day of the last event. -/
theorem claim_C6 (feed : List Event) (hne : feed ≠ []) :
    (∃ m, minTs feed = some m ∧ startdate feed = dayFloor m) ∧
    (∃ M, maxTs feed = some M ∧ enddate feed = dayFloor M + ticksPerDay ∧
      dayFloor M ∈ dateRange (startdate feed) (enddate feed)) ∧
    (∀ d, d ∈ dateRange (startdate feed) (enddate feed) ↔
      (ticksPerDay ∣ d ∧ startdate feed ≤ d ∧ d ≤ enddate feed)) := by
  obtain ⟨m, hm⟩ := min?_ne_none (l := feed.map (fun x => x.ts))
    (by simpa using hne)
  obtain ⟨M, hM⟩ := max?_ne_none (l := feed.map (fun x => x.ts))
    (by simpa using hne)
  have hsd : startdate feed = dayFloor m := by
    unfold startdate minTs
    rw [hm]
    rfl
  have hed : enddate feed = dayFloor M + ticksPerDay := by
    unfold enddate maxTs
    rw [hM]
    rfl
  have hmM : m ≤ M := min?_le_of_mem hm (natMax?_iff.mp hM).1
  have hmono : dayFloor m ≤ dayFloor M := dayFloor_mono hmM
  have h1 := dayFloor_dvd m
  have h2 := dayFloor_dvd M
  have hmem : ∀ d, d ∈ dateRange (startdate feed) (enddate feed) ↔
      (ticksPerDay ∣ d ∧ startdate feed ≤ d ∧ d ≤ enddate feed) := by
    intro d
    rw [mem_dateRange, hsd, hed]
    unfold ticksPerDay at h1 h2 ⊢
    constructor
    · rintro ⟨hse, hsd2, hde, hdvd⟩
      exact ⟨by omega, hsd2, hde⟩
    · rintro ⟨hdvd, hsd2, hde⟩
      exact ⟨by omega, hsd2, hde, by omega⟩
  refine ⟨⟨m, hm, hsd⟩, ⟨M, hM, hed, ?_⟩, hmem⟩
  rw [hmem]
  refine ⟨h2, ?_, ?_⟩
  · rw [hsd]
    exact hmono
  · rw [hed]
    unfold ticksPerDay
    omega

/-- C6 witness: a one-event feed (timestamp mid-day 1). -/
theorem claim_C6_witness :
    (∃ m, minTs [(⟨"u", 30, 3, some 1⟩ : Event)] = some m ∧
      startdate [(⟨"u", 30, 3, some 1⟩ : Event)] = dayFloor m) ∧
    (∃ M, maxTs [(⟨"u", 30, 3, some 1⟩ : Event)] = some M ∧
      enddate [(⟨"u", 30, 3, some 1⟩ : Event)] = dayFloor M + ticksPerDay ∧
      dayFloor M ∈ dateRange (startdate [(⟨"u", 30, 3, some 1⟩ : Event)])
        (enddate [(⟨"u", 30, 3, some 1⟩ : Event)])) ∧
    (∀ d, d ∈ dateRange (startdate [(⟨"u", 30, 3, some 1⟩ : Event)])
        (enddate [(⟨"u", 30, 3, some 1⟩ : Event)]) ↔
      (ticksPerDay ∣ d ∧ startdate [(⟨"u", 30, 3, some 1⟩ : Event)] ≤ d ∧
        d ≤ enddate [(⟨"u", 30, 3, some 1⟩ : Event)])) :=
  claim_C6 [⟨"u", 30, 3, some 1⟩] (by decide)

/-- C8: the simulator is a pure function (two runs on the same inputs give
the same history), and the column a unit receives in the table depends only
on that unit's own rows and the shared date bounds: two feeds agreeing on
those agree on the unit's column. -/
theorem claim_C8 (events : List Event) (s e : Nat) (inst : Option Nat)
    (feed1 feed2 : List Event) (u : String)
    (hev : unittransOf u feed1 = unittransOf u feed2)
    (hs : startdate feed1 = startdate feed2)
    (hend : enddate feed1 = enddate feed2) :
    unitdailystatus events s e inst = unitdailystatus events s e inst ∧
      (unithistorytable feed1).lookup u = (unithistorytable feed2).lookup u := by
  refine ⟨rfl, ?_⟩
  rw [lookup_unithistorytable, lookup_unithistorytable, hev, hs, hend]

/-- C8 witness: two feeds in which unit `a` has the same single row and
unit `b` differs (but keeps the same global bounds); column `a` agrees. -/
theorem claim_C8_witness :
    unittransOf "a" [⟨"a", 0, 3, some 1⟩, ⟨"b", 30, 3, some 2⟩] =
        unittransOf "a" [⟨"a", 0, 3, some 1⟩, ⟨"b", 40, 4, some 2⟩] ∧
      (unithistorytable [⟨"a", 0, 3, some 1⟩, ⟨"b", 30, 3, some 2⟩]).lookup "a" =
        (unithistorytable [⟨"a", 0, 3, some 1⟩, ⟨"b", 40, 4, some 2⟩]).lookup "a" :=
  ⟨by decide,
    (claim_C8 [] 0 0 none [⟨"a", 0, 3, some 1⟩, ⟨"b", 30, 3, some 2⟩]
      [⟨"a", 0, 3, some 1⟩, ⟨"b", 40, 4, some 2⟩] "a" (by decide) (by decide)
      (by decide)).2⟩

/-- C10: joining one unit's history adds exactly one column keyed by that
unit and leaves every column already present unchanged; after the loop,
each unit with at least one transaction has a column equal to exactly the
history the simulator produced for it. -/
theorem claim_C10 (feed : List Event) :
    (∀ (tbl : UHT) (u : String) (hist : UnitHistory),
      (joinColumn tbl u hist).map Prod.fst = tbl.map Prod.fst ++ [u]) ∧
    (∀ (tbl : UHT) (u w : String) (hist : UnitHistory),
      (tbl.lookup w).isSome = true →
      (joinColumn tbl u hist).lookup w = tbl.lookup w) ∧
    (∀ u : String, unittransOf u feed ≠ [] →
      (unithistorytable feed).lookup u =
        some (unitdailystatus (unittransOf u feed) (startdate feed)
          (enddate feed) none)) := by
  refine ⟨?_, ?_, ?_⟩
  · intro tbl u hist
    simp [joinColumn]
  · intro tbl u w hist hw
    exact lookup_append_left hw
  · intro u hne
    rw [lookup_unithistorytable, if_pos hne]

/-- C10 witness: a two-unit feed and a concrete join step. -/
theorem claim_C10_witness :
    ((([("a", [(0, some (UStatus.credit 7))])] : UHT).lookup "a").isSome = true ∧
      (joinColumn [("a", [(0, some (UStatus.credit 7))])] "b" []).lookup "a" =
        ([("a", [(0, some (UStatus.credit 7))])] : UHT).lookup "a") ∧
      (unittransOf "a" [⟨"a", 0, 3, some 1⟩] ≠ [] ∧
        (unithistorytable [⟨"a", 0, 3, some 1⟩]).lookup "a" =
          some (unitdailystatus (unittransOf "a" [⟨"a", 0, 3, some 1⟩])
            (startdate [⟨"a", 0, 3, some 1⟩]) (enddate [⟨"a", 0, 3, some 1⟩])
            none)) :=
  ⟨⟨by decide,
      (claim_C10 [⟨"a", 0, 3, some 1⟩]).2.1 [("a", [(0, some (UStatus.credit 7))])]
        "b" "a" [] (by decide)⟩,
    by decide,
    (claim_C10 [⟨"a", 0, 3, some 1⟩]).2.2 "a" (by decide)⟩

end BuildUHT
